import Mathlib

/-!
Verification development for the time-tracker repository
(timelog-visualizer calendar core and its Svelte callers).

Timestamps are modelled as `Int` epoch milliseconds (JS `Date.getTime()`).
The viewer's IANA time zone is modelled by an offset function
`off : Int → Int` giving, for a UTC instant `ts`, the zone's UTC offset in
milliseconds (positive east of UTC), exactly the value computed by the
`offset` helper in `CalendarEntries.js` via `Intl.DateTimeFormat.formatToParts`::
`off ts = localCivilEpoch(ts) - ts`.

The composition `Date.UTC(year, month - 1, day, 0, 0, 0)` applied to the
UTC civil-date parts of an epoch `t` equals `dayms * ⌊t / dayms⌋` (a
standard identity of the proleptic Gregorian epoch arithmetic used by
JavaScript dates); `utcDayStart` embeds that composition directly.
-/

namespace TimeTracker

/-- Milliseconds in one day (`const dayms = 24 * 60 * 60 * 1000`). -/
def dayms : Int := 86400000

/-- `Date.UTC(y, m-1, d, 0, 0, 0)` for the UTC civil date `(y,m,d)` of epoch `t`:
the start of the UTC calendar day containing `t`. -/
def utcDayStart (t : Int) : Int := dayms * (t.fdiv dayms)

/-- A time zone, as the per-instant UTC offset function (ms east of UTC).
This is what the `offset` helper in `CalendarEntries.js` computes. -/
def Zone : Type := Int → Int

/-- The UTC zone (offset 0 everywhere). -/
def utcZone : Zone := fun _ => 0

/-- A constant-offset zone. -/
def constZone (c : Int) : Zone := fun _ => c

/-- Embeds `nextMidnight` from `CalendarEntries.js`:
reads the civil date `(y,m,d)` of `ts` in the zone, forms
`baseUTC = Date.UTC(y, m-1, d+1, 0, 0, 1)` (note the **one second**: hour 0,
minute 0, second 1), and returns `baseUTC - offset(baseUTC)`. -/
def nextMidnight (off : Zone) (ts : Int) : Int :=
  let baseUTC := utcDayStart (ts + off ts) + dayms + 1000
  baseUTC - off baseUTC

/-- Embeds `currentMidnight` from `CalendarEntries.js`:
`Date.UTC(y, m-1, d, 0, 0, 1)` for the zone-local civil date of `ts`,
returned **without** shifting by the zone offset. -/
def currentMidnight (off : Zone) (ts : Int) : Int :=
  utcDayStart (ts + off ts) + 1000

/-- The zone-local calendar date of instant `ts`, as a day number
(days since the epoch of the local civil date). -/
def localDayNumber (off : Zone) (ts : Int) : Int :=
  (ts + off ts).fdiv dayms

/-- `Date.prototype.getDay()` in the zone: 0 = Sunday … 6 = Saturday.
Epoch day 0 (1970-01-01) was a Thursday (= 4). -/
def getDay (off : Zone) (ts : Int) : Int :=
  (localDayNumber off ts + 4).emod 7

/-- Embeds `getDayIndex` from `CalendarEntries.js`: `(date.getDay() - 1 + 7) % 7`
(Monday-based column index). -/
def getDayIndex (off : Zone) (ts : Int) : Int :=
  (getDay off ts - 1 + 7).emod 7

/-- An event / sub-block as handled by `splitByDay`: `{time, end}` epoch ms
(field `end` of the source is `stop` here, `end` being reserved in Lean). -/
structure Slice where
  time : Int
  stop : Int
deriving DecidableEq, Repr

/-- The `while (start < end)` loop body of `splitByDay`, with explicit fuel.
Each iteration emits `[start, min(end, nextMidnight(start) - 1)]` and resumes
at the next millisecond; fuel `(end - start).toNat + 1` is enough whenever
`nextMidnight` moves forward (each step advances by at least 1 ms). -/
def splitGo (off : Zone) (e : Int) : Nat → Int → List Slice
  | 0, _ => []
  | fuel + 1, s =>
    if s < e then
      let sliceEnd := min e (nextMidnight off s - 1)
      ⟨s, sliceEnd⟩ :: splitGo off e fuel (sliceEnd + 1)
    else []

/-- Splits one event `[s, e)` into per-day sub-blocks (the inner loop of
`splitByDay` applied to one parsed event). -/
def splitEvent (off : Zone) (s e : Int) : List Slice :=
  splitGo off e ((e - s).toNat + 1) s

/-- Embeds `splitByDay` from `CalendarEntries.js` (events already parsed:
the claims only concern events with parseable `time`/`end`). -/
def splitByDay (off : Zone) (events : List Slice) : List Slice :=
  events.flatMap (fun ev => splitEvent off ev.time ev.stop)

/-! ## Focused entries (`convertFocusedEntries`, `getFocusedBlocks`) -/

/-- A raw focused-window log row (`FocusedEntryRaw` in the source), with the
timestamp already parsed to epoch ms. -/
structure FocusedEntryRaw where
  time : Int
  title : String
  process : String
  path : String
  url : Option String
deriving DecidableEq, Repr

/-- A converted focused entry (`FocusedEntry` in the source); source field
`end` is `stop?` here. -/
structure FocusedEntry where
  start : Int
  stop? : Option Int
  title : String
  process : String
  path : String
  url : Option String
deriving DecidableEq, Repr

/-- Embeds `convertFocusedEntries`: entry `i` gets `end = entries[i+1].time`,
the last entry gets `end = undefined`. -/
def convertFocusedEntries : List FocusedEntryRaw → List FocusedEntry
  | [] => []
  | [e] => [⟨e.time, none, e.title, e.process, e.path, e.url⟩]
  | e :: e2 :: rest =>
    ⟨e.time, some e2.time, e.title, e.process, e.path, e.url⟩ ::
      convertFocusedEntries (e2 :: rest)

/-- JS `a || b` on strings (empty string is falsy). -/
def jsOrStr (a b : String) : String := if a = "" then b else a

/-- The block label `entry.title || entry.process || entry.path || entry.url || ''`. -/
def focusedLabel (e : FocusedEntry) : String :=
  jsOrStr e.title (jsOrStr e.process (jsOrStr e.path (e.url.getD "")))

/-- The `timeAxis` argument of `getFocusedBlocks`: a function from ms offsets
to pixels together with its `range()` array `[r0, r1]`
(`d3.scaleLinear().range([labelHeight, svgHeight - labelHeight])`). The axis
is an arbitrary function parameter in the source; its pixel values are
modelled as integers (the visibility filter only compares them, and the
concrete scales used in the theorems are integral). -/
structure TimeAxis where
  toFun : Int → Int
  r0 : Int
  r1 : Int

/-- One rectangle pushed by `getFocusedBlocks` (a `CalendarBlock` with layout
fields); source field `end` is `stop`. -/
structure FocusedRect where
  start : Int
  stop : Int
  label : String
  x : ℚ
  y : Int
  width : ℚ
  height : Int
  entry : FocusedEntry
deriving Repr

/-- The visibility filter at the heart of `getFocusedBlocks`:
`y + height >= timeAxis.range()[0] && y < timeAxis.range()[1]`. -/
def rectVisible (axis : TimeAxis) (r : FocusedRect) : Prop :=
  axis.r0 ≤ r.y + r.height ∧ r.y < axis.r1

instance (axis : TimeAxis) (r : FocusedRect) : Decidable (rectVisible axis r) :=
  inferInstanceAs (Decidable (_ ∧ _))

/-- The rectangle built by one iteration of the `while` loop of
`getFocusedBlocks` for slice start `s` of `entry` (before the visibility
filter): `blockEnd = nextMidnight(start) - 1`, `dayStart = currentMidnight(start)`,
and the pushed record has `end: new Date(blockEnd)`. -/
def focusedRectAt (off : Zone) (axis : TimeAxis) (svgWidth labelWidth : ℚ)
    (drLen : ℚ) (endV : Int) (entry : FocusedEntry) (s : Int) : FocusedRect :=
  let blockEnd := nextMidnight off s - 1
  let dayIndex := getDayIndex off s
  let dayStart := currentMidnight off s
  { start := s
    stop := blockEnd
    label := focusedLabel entry
    x := labelWidth + (dayIndex : ℚ) * ((svgWidth - labelWidth) / drLen)
    y := axis.toFun (s - dayStart)
    width := (1 / 2 : ℚ) * (svgWidth - labelWidth) / drLen - 4
    height := |axis.toFun (min endV blockEnd - dayStart) - axis.toFun (s - dayStart)|
    entry := entry }

/-- The `while (start < end)` loop of `getFocusedBlocks`, with fuel
(the loop advances to `blockEnd + 1 = nextMidnight(start)` each iteration). -/
def focusedGo (off : Zone) (axis : TimeAxis) (svgWidth labelWidth : ℚ)
    (drLen : ℚ) (endV : Int) (entry : FocusedEntry) :
    Nat → Int → List FocusedRect
  | 0, _ => []
  | fuel + 1, s =>
    if s < endV then
      let r := focusedRectAt off axis svgWidth labelWidth drLen endV entry s
      (if rectVisible axis r then [r] else []) ++
        focusedGo off axis svgWidth labelWidth drLen endV entry fuel
          (nextMidnight off s - 1 + 1)
    else []

/-- The rectangles of one entry: the effective end is
`entry.end || min(Date.now(), dateRange[dateRange.length-1] + dayms)`
(`lastDay` is the epoch of the last element of `dateRange`; the source throws
on an empty `dateRange` with an open entry — that case is outside every
claim and is given the harmless default through `lastDay`). -/
def focusedEntryRects (off : Zone) (axis : TimeAxis) (svgWidth labelWidth : ℚ)
    (drLen : ℚ) (lastDay now : Int) (entry : FocusedEntry) : List FocusedRect :=
  let endV := entry.stop?.getD (min now (lastDay + dayms))
  focusedGo off axis svgWidth labelWidth drLen endV entry
    ((endV - entry.start).toNat + 1) entry.start

/-- Embeds `getFocusedBlocks(entries, timeAxis, svgWidth, labelWidth, dateRange)`
from `CalendarEntries.js`; `now` stands for `Date.now()` and `off` for the
resolved viewer zone. -/
def getFocusedBlocks (off : Zone) (now : Int) (entries : List FocusedEntry)
    (axis : TimeAxis) (svgWidth labelWidth : ℚ) (dateRange : List Int) :
    List FocusedRect :=
  entries.flatMap
    (focusedEntryRects off axis svgWidth labelWidth (dateRange.length : ℚ)
      ((dateRange.getLast?).getD 0) now)

/-- Same generation as `getFocusedBlocks` but without the visibility filter:
every day-slice rectangle of every entry, in emission order. -/
def focusedCandidatesGo (off : Zone) (axis : TimeAxis) (svgWidth labelWidth : ℚ)
    (drLen : ℚ) (endV : Int) (entry : FocusedEntry) :
    Nat → Int → List FocusedRect
  | 0, _ => []
  | fuel + 1, s =>
    if s < endV then
      focusedRectAt off axis svgWidth labelWidth drLen endV entry s ::
        focusedCandidatesGo off axis svgWidth labelWidth drLen endV entry fuel
          (nextMidnight off s - 1 + 1)
    else []

/-- All candidate day-slice rectangles (unfiltered analogue of
`getFocusedBlocks`). -/
def getFocusedCandidates (off : Zone) (now : Int) (entries : List FocusedEntry)
    (axis : TimeAxis) (svgWidth labelWidth : ℚ) (dateRange : List Int) :
    List FocusedRect :=
  entries.flatMap (fun entry =>
    let drLen : ℚ := (dateRange.length : ℚ)
    let lastDay := (dateRange.getLast?).getD 0
    let endV := entry.stop?.getD (min now (lastDay + dayms))
    focusedCandidatesGo off axis svgWidth labelWidth drLen endV entry
      ((endV - entry.start).toNat + 1) entry.start)

/-! ## System entries (`convertSystemEntries`, `getSystemBlocks`) -/

/-- A raw system log row (`SystemEntryRaw` in the source): `isIdle` and
`sleepState` are the literal CSV strings; source field `end` is `stop?`. -/
structure SystemEntryRaw where
  time : Int
  isIdle : String
  sleepState : String
  stop? : Option Int
deriving DecidableEq, Repr

/-- A converted system entry (`SystemEntry` in the source): `sleepState`
is `none` for the string `'false'` and `some s` otherwise. -/
structure SystemEntry where
  start : Int
  stop? : Option Int
  isIdle : Bool
  sleepState : Option String
deriving DecidableEq, Repr

/-- Embeds `convertSystemEntries` from `CalendarEntries.js`. -/
def convertSystemEntries (entries : List SystemEntryRaw) : List SystemEntry :=
  entries.map (fun e =>
    { start := e.time
      stop? := e.stop?
      isIdle := e.isIdle = "true"
      sleepState := if e.sleepState = "false" then none else some e.sleepState })

/-- A labelled interval rectangle built by `getSystemBlocks`; source fields
`start`/`end` are `start`/`stop`. -/
structure SysRect where
  start : Int
  stop : Int
  label : String
deriving DecidableEq, Repr

/-- One step of the idle-merging scan of `getSystemBlocks`: the next open
rectangle (`currentRect`) after seeing entry `e`. A fresh rectangle opens at
`e.start` with `end = new Date()` (= `now`); a defined `e.end` overwrites the
end; a non-idle entry closes the rectangle. -/
def idleStepState (now : Int) (cur : Option SysRect) (e : SystemEntry) :
    Option SysRect :=
  if e.isIdle = false then none
  else
    let cur1 := match cur with
      | none => ({ start := e.start, stop := now, label := "Idle" } : SysRect)
      | some r => r
    match e.stop? with
    | some en => some { cur1 with stop := en }
    | none => some cur1

/-- The rectangles pushed while seeing entry `e` (a non-idle entry pushes the
open rectangle, if any). -/
def idleStepEmit (cur : Option SysRect) (e : SystemEntry) : List SysRect :=
  if e.isIdle = false then
    match cur with
    | some r => [r]
    | none => []
  else []

/-- The idle-merging scan of `getSystemBlocks` (its first phase): processes
the entries in order and finally pushes the still-open rectangle. -/
def mergeIdleGo (now : Int) (cur : Option SysRect) :
    List SystemEntry → List SysRect
  | [] =>
    match cur with
    | some r => [r]
    | none => []
  | e :: rest => idleStepEmit cur e ++ mergeIdleGo now (idleStepState now cur e) rest

/-- The `currentRect` state after scanning a list of entries. -/
def idleStateAfter (now : Int) (cur : Option SysRect) (l : List SystemEntry) :
    Option SysRect :=
  l.foldl (idleStepState now) cur

/-- The idle rectangles of `getSystemBlocks` before day-splitting. -/
def mergeIdleRects (now : Int) (entries : List SystemEntry) : List SysRect :=
  mergeIdleGo now none entries

/-- The day-splitting loop of `getSystemBlocks` (its second phase), with fuel:
each slice is `[start, min(end, nextMidnight(start) - 1)]` and the loop
advances to `nextMidnight(start)`. -/
def splitSysGo (off : Zone) (e : Int) (label : String) :
    Nat → Int → List SysRect
  | 0, _ => []
  | fuel + 1, s =>
    if s < e then
      let sliceEnd := nextMidnight off s - 1
      ⟨s, min e sliceEnd, label⟩ ::
        splitSysGo off e label fuel (sliceEnd + 1)
    else []

/-- Day-splits one merged rectangle (the `flatMap` body of `getSystemBlocks`). -/
def splitSysRect (off : Zone) (r : SysRect) : List SysRect :=
  splitSysGo off r.stop r.label ((r.stop - r.start).toNat + 1) r.start

/-- Embeds `getSystemBlocks` from `CalendarEntries.js`: merge idle runs, then
split the resulting rectangles by local day. -/
def getSystemBlocks (off : Zone) (now : Int) (entries : List SystemEntry) :
    List SysRect :=
  (mergeIdleRects now entries).flatMap (splitSysRect off)

/-- Modelled from the spec: the sleep-signal Interval Merger of the Block
Builder. The `CalendarEntries.js` variant that merges the
`sleep_start`/`sleep_stop` pair into `'Sleep'`-labelled blocks is missing from
`src/` (the `getSystemBlocks` present there handles only `isIdle`, yet its
caller styles `rect.label === 'Sleep'` blocks). Per spec section 4.1: a
`sleep_start` with no open interval opens one at that entry's start; a
`sleep_stop` closes the open interval at its own timestamp; a lone
`sleep_stop` with no preceding open `sleep_start` synthesizes an interval
from `end - 7 days` to `end`; an interval still open after the last entry is
emitted with `end = now`. -/
def getSleepBlocks (now : Int) (openStart : Option Int) :
    List SystemEntry → List SysRect
  | [] =>
    match openStart with
    | some s => [⟨s, now, "Sleep"⟩]
    | none => []
  | e :: rest =>
    if e.sleepState = some "sleep_start" then
      match openStart with
      | none => getSleepBlocks now (some e.start) rest
      | some s => getSleepBlocks now (some s) rest
    else if e.sleepState = some "sleep_stop" then
      match openStart with
      | some s => ⟨s, e.start, "Sleep"⟩ :: getSleepBlocks now none rest
      | none => ⟨e.start - 7 * dayms, e.start, "Sleep"⟩ :: getSleepBlocks now none rest
    else getSleepBlocks now openStart rest

/-! ## Process entries (`consolidateProcessEntries`, lane allocation) -/

/-- A process sample row (`ProcessEntry` in the source), timestamps parsed. -/
structure ProcessEntry where
  time : Int
  pid : String
  name : String
  cpu : String
  memory : String
  started : Int
deriving DecidableEq, Repr

/-- A consolidated run (`ProcessEntryBlock` in the source); source field
`end` is `stop`. -/
structure ProcessEntryBlock where
  pid : String
  name : String
  timestamps : List Int
  cpu : List String
  memory : List String
  start : Int
  stop : Int
  started : Int
deriving DecidableEq, Repr

/-- The consolidation key `` `${pid}-${started}-${getDay(time)}` `` of
`consolidateProcessEntries`, as the triple it encodes (the encoding is
injective: the two numeric components contain no dash). -/
def processKey (off : Zone) (e : ProcessEntry) : String × Int × Int :=
  (e.pid, e.started, getDay off e.time)

/-- The fresh block created for the first sample of a key. -/
def newProcessBlock (e : ProcessEntry) : ProcessEntryBlock :=
  { pid := e.pid, name := e.name, timestamps := [e.time], cpu := [e.cpu]
    memory := [e.memory], start := e.time, stop := e.time, started := e.started }

/-- Merging one more sample into an existing block (push timestamp/cpu/memory,
move the end). -/
def pushSample (b : ProcessEntryBlock) (e : ProcessEntry) : ProcessEntryBlock :=
  { b with timestamps := b.timestamps ++ [e.time], cpu := b.cpu ++ [e.cpu]
           memory := b.memory ++ [e.memory], stop := e.time }

/-- One step of `consolidateProcessEntries`: the `consolidated` dictionary is
an association list in key-insertion order (JS object insertion order for
non-index keys). -/
def consolidateStep (off : Zone)
    (acc : List ((String × Int × Int) × ProcessEntryBlock)) (e : ProcessEntry) :
    List ((String × Int × Int) × ProcessEntryBlock) :=
  if acc.any (fun kb => kb.1 = processKey off e) then
    acc.map (fun kb =>
      if kb.1 = processKey off e then (kb.1, pushSample kb.2 e) else kb)
  else acc ++ [(processKey off e, newProcessBlock e)]

/-- The `consolidated` dictionary of `consolidateProcessEntries` after all
entries. -/
def consolidatedDict (off : Zone) (entries : List ProcessEntry) :
    List ((String × Int × Int) × ProcessEntryBlock) :=
  entries.foldl (consolidateStep off) []

/-- Embeds `consolidateProcessEntries` from `CalendarEntries.js`
(`Object.values` of the dictionary, in key-insertion order). -/
def consolidateProcessEntries (off : Zone) (entries : List ProcessEntry) :
    List ProcessEntryBlock :=
  (consolidatedDict off entries).map Prod.snd

/-- The block that collects a whole (possibly non-contiguous) group of
samples, in input order: timestamps/cpu/memory are the samples' fields in
order, `start` the first sample's time, `stop` the last's. Stated for
comparison with `consolidateProcessEntries`. -/
def groupBlock : List ProcessEntry → Option ProcessEntryBlock
  | [] => none
  | e :: es =>
    some { pid := e.pid, name := e.name
           timestamps := (e :: es).map ProcessEntry.time
           cpu := (e :: es).map ProcessEntry.cpu
           memory := (e :: es).map ProcessEntry.memory
           start := e.time, stop := (es.getLastD e).time, started := e.started }

/-- Embeds `getUniqueProcessName` from the calendar view:
`entry.name + "-" + entry.pid`. -/
def getUniqueProcessName (b : ProcessEntryBlock) : String :=
  b.name ++ "-" ++ b.pid

/-- One interval recorded in `processIntervals`: lane-group key
`` `${entry.name}-${groupIndex}` `` (as the pair it injectively encodes) plus
the block's `[start, end]`. -/
structure LaneAssign where
  name : String
  idx : Nat
  start : Int
  stop : Int
deriving DecidableEq, Repr

/-- The intervals currently assigned to lane group `(name, i)`. -/
def groupIntervals (assigns : List LaneAssign) (name : String) (i : Nat) :
    List (Int × Int) :=
  (assigns.filter (fun a => a.name = name ∧ a.idx = i)).map
    (fun a => (a.start, a.stop))

/-- Embeds `canPlaceInGroup` of `processNameToIndex`: no recorded interval of
the group satisfies `entry.start < end && entry.end > start`. -/
def canPlaceInGroup (assigns : List LaneAssign) (b : ProcessEntryBlock)
    (name : String) (i : Nat) : Bool :=
  (groupIntervals assigns name i).all
    (fun iv => !(decide (b.start < iv.2) && decide (b.stop > iv.1)))

/-- A lane group with index above every recorded index is empty, so a
placeable group index always exists (the `while` loop terminates). -/
theorem exists_canPlace (assigns : List LaneAssign) (b : ProcessEntryBlock)
    (name : String) : ∃ i, canPlaceInGroup assigns b name i = true := by
  refine ⟨(assigns.map LaneAssign.idx).foldr max 0 + 1, ?_⟩
  have hempty : groupIntervals assigns name ((assigns.map LaneAssign.idx).foldr max 0 + 1) = [] := by
    unfold groupIntervals
    rw [List.filter_eq_nil_iff.mpr, List.map_nil]
    intro a ha
    simp only [decide_eq_true_eq, not_and]
    intro _ hidx
    have hle : a.idx ≤ (assigns.map LaneAssign.idx).foldr max 0 := by
      have : a.idx ∈ assigns.map LaneAssign.idx := List.mem_map_of_mem _ ha
      revert this
      generalize assigns.map LaneAssign.idx = l
      intro hmem
      induction l with
      | nil => cases hmem
      | cons x xs ih =>
        rcases List.mem_cons.mp hmem with h | h
        · subst h; exact le_max_left _ _
        · exact le_trans (ih h) (le_max_right _ _)
    omega
  unfold canPlaceInGroup
  rw [hempty]
  rfl

/-- The `groupIndex = 0, 1, 2, …` search of `processNameToIndex`: the least
group index whose interval set does not overlap the candidate block. -/
def chooseGroupIndex (assigns : List LaneAssign) (b : ProcessEntryBlock)
    (name : String) : Nat :=
  Nat.find (exists_canPlace assigns b name)

/-- The allocator state: `assigns` mirrors the contents of `processIntervals`
(in push order), `keys` its key list (in first-insertion order, for
`[...processIntervals.keys()].indexOf(group)`), `nameToIndex` the
`processNameToIndex` record (in insertion order). -/
structure AllocState where
  assigns : List LaneAssign
  keys : List (String × Nat)
  nameToIndex : List (String × Nat)
deriving Repr

/-- One iteration of the `for (let rect of processRects)` loop of
`processNameToIndex` in the calendar view. -/
def allocStep (st : AllocState) (b : ProcessEntryBlock) : AllocState :=
  let i := chooseGroupIndex st.assigns b b.name
  let keys1 := if (b.name, i) ∈ st.keys then st.keys else st.keys ++ [(b.name, i)]
  let assigns1 := st.assigns ++ [⟨b.name, i, b.start, b.stop⟩]
  let nameToIndex1 :=
    if st.nameToIndex.any (fun p => p.1 = getUniqueProcessName b) then
      st.nameToIndex
    else st.nameToIndex ++ [(getUniqueProcessName b, keys1.indexOf (b.name, i))]
  ⟨assigns1, keys1, nameToIndex1⟩

/-- Embeds `processNameToIndex` from the calendar view (`src/unnamed/part_002`):
the full allocator state after greedily placing every block. -/
def processNameToIndex (blocks : List ProcessEntryBlock) : AllocState :=
  blocks.foldl allocStep ⟨[], [], []⟩

/-! ## Calendar geometry (`dateToY`, `rectHeight` in `src/unnamed/part_002`) -/

/-- Embeds `dateToY`: `timeAxis(date.getTime() - currentMidnight(date.getTime()))`. -/
def dateToY (axis : TimeAxis) (off : Zone) (d : Int) : Int :=
  axis.toFun (d - currentMidnight off d)

/-- Embeds `rectHeight`: both endpoints are measured from
`currentMidnight(start)`. -/
def rectHeight (axis : TimeAxis) (off : Zone) (s e : Int) : Int :=
  |axis.toFun (e - currentMidnight off s) - axis.toFun (s - currentMidnight off s)|

/-! ## Spec-side reference definitions (for comparison with the code) -/

/-- Following the spec's words, for comparison with the code's `nextMidnight`:
the glossary defines local midnight as "00:00:00 in the viewer's resolved
IANA time zone", so the next local midnight after `ts` is the UTC instant
whose local civil time is 00:00:00.000 of the next local day. -/
def specNextLocalMidnight (off : Zone) (ts : Int) : Int :=
  let base := utcDayStart (ts + off ts) + dayms
  base - off base

/-- Following the spec's words, for comparison with the code's
`currentMidnight`: the UTC instant at which a constant-offset zone's local
clock reads 00:00:00.000 on the local calendar date of `ts`. -/
def specLocalMidnightInstant (c : Int) (ts : Int) : Int :=
  dayms * localDayNumber (constZone c) ts - c

/-! ## Auxiliary scan decomposition for the idle merge -/

/-- The rectangles emitted while scanning a list of entries (without the final
flush of the still-open rectangle). -/
def emitDuring (now : Int) (cur : Option SysRect) :
    List SystemEntry → List SysRect
  | [] => []
  | e :: rest => idleStepEmit cur e ++ emitDuring now (idleStepState now cur e) rest

/-- A prefix after which the idle scan is guaranteed to hold no open
rectangle: empty, or ending in a non-idle entry. -/
def PreClosed (pre : List SystemEntry) : Prop :=
  pre = [] ∨ ∃ x, pre.getLast? = some x ∧ x.isIdle = false

/-! ## Concrete scenario inputs -/

/-- 2024-01-01 is a Monday; 1704067200000 = 2024-01-01T00:00:00Z. The
focused-entry scenario log: A at 09:00, B at 09:30, A at 17:00 (UTC viewer). -/
def focusedLog : List FocusedEntryRaw :=
  [⟨1704099600000, "A", "procA", "", none⟩,
   ⟨1704101400000, "B", "procB", "", none⟩,
   ⟨1704128400000, "A", "procA", "", none⟩]

/-- An identity-like pixel scale whose visible range spans the whole day
(a `d3.scaleLinear` with equal domain and range). -/
def axisWholeDay : TimeAxis := ⟨fun t => t, 0, 86400000⟩

/-- A timestamp-ordered system log whose final run of idle entries is not
followed by a non-idle entry: idle at 0 (closed by `end = 5`, the loader's
next-row timestamp), idle again at 5 with no `end` (last row). -/
def idleTailLog : List SystemEntry :=
  [⟨0, some 5, true, none⟩, ⟨5, none, true, none⟩]

/-- Three process samples on one local day: pid 1, then pid 2, then pid 1
again — the first and third share a consolidation key but are not
consecutive. -/
def processLog : List ProcessEntry :=
  [⟨0, "1", "a", "10", "100", 0⟩,
   ⟨1, "2", "b", "20", "200", 0⟩,
   ⟨2, "1", "a", "30", "300", 0⟩]

/-! ## Helper lemmas -/

/-- In the UTC zone the code's `nextMidnight` always lies strictly after its
argument, so the splitting loops progress. -/
theorem utc_lt_nextMidnight (t : Int) : t < nextMidnight utcZone t := by
  unfold nextMidnight utcZone utcDayStart dayms
  simp only
  rw [Int.fdiv_eq_ediv _ (by norm_num)]
  omega

/-! ## C1: day slices and local midnight -/

/-- C1: the Day Splitter violates the no-day-crossing property. For the event
2024-01-01T23:00Z → 2024-01-02T01:00Z with a UTC viewer, `splitByDay` emits a
first sub-block whose start lies on local day 19723 (2024-01-01) but whose
end lies on local day 19724 (2024-01-02): `nextMidnight` builds
`Date.UTC(y, m-1, d+1, 0, 0, 1)` — one second past midnight — so the slice
end `nextMidnight - 1` is 00:00:00.999 of the next local day. -/
theorem splitByDay_slice_crosses_midnight :
    (splitByDay utcZone [⟨1704150000000, 1704157200000⟩]).map
        (fun sl => (localDayNumber utcZone sl.time, localDayNumber utcZone sl.stop))
      = [(19723, 19724), (19724, 19724)] ∧ (19723 : Int) ≠ 19724 := by
  constructor
  · rfl
  · decide

/-! ## C2: tiling of the day slices -/

/-- C2 counterexample: for the same midnight-spanning event, the first
sub-block's end is 1704153600999 (00:00:00.999 of Jan 2), not
`min(E.end, nextLocalMidnight(start) - 1ms)` = 1704153599999 (23:59:59.999
of Jan 1, per the spec's definition of local midnight). -/
theorem splitEvent_end_ne_spec_midnight :
    ((splitEvent utcZone 1704150000000 1704157200000).map Slice.stop).head? =
        some 1704153600999 ∧
    min (1704157200000 : Int)
        (specNextLocalMidnight utcZone 1704150000000 - 1) = 1704153599999 ∧
    (1704153600999 : Int) ≠ 1704153599999 := by
  refine ⟨rfl, by decide, by decide⟩

theorem splitGo_of_not_lt (off : Zone) (e : Int) (f : Nat) (s : Int)
    (h : ¬ s < e) : splitGo off e f s = [] := by
  cases f with
  | zero => rfl
  | succ g => simp [splitGo, h]

/-- The invariants of one inner loop of `splitByDay`, by induction on fuel:
first slice starts at `s`, consecutive slices are 1 ms apart, every slice end
follows the code's `min(end, nextMidnight(start) - 1)`, and the last slice
ends at `e` — or at `e - 1` when `e` is exactly the code's next midnight of
the last slice's start. -/
theorem splitGo_spec (off : Zone) (e : Int)
    (hprog : ∀ t : Int, t < nextMidnight off t) :
    ∀ (fuel : Nat) (s : Int), s < e → (e - s).toNat < fuel →
      ((splitGo off e fuel s).head?.map Slice.time = some s ∧
        List.Chain' (fun a b => b.time = a.stop + 1) (splitGo off e fuel s)) ∧
      (∀ sl ∈ splitGo off e fuel s,
        sl.stop = min e (nextMidnight off sl.time - 1)) ∧
      ∃ lastSl, (splitGo off e fuel s).getLast? = some lastSl ∧
        (lastSl.stop = e ∨
          (lastSl.stop = e - 1 ∧ nextMidnight off lastSl.time = e)) := by
  intro fuel
  induction fuel with
  | zero => intro s _ hf; exact absurd hf (Nat.not_lt_zero _)
  | succ f ih =>
    intro s hs hf
    have hgo : splitGo off e (f + 1) s =
        ⟨s, min e (nextMidnight off s - 1)⟩ ::
          splitGo off e f (min e (nextMidnight off s - 1) + 1) := by
      simp [splitGo, hs]
    rcases le_or_lt e (nextMidnight off s - 1) with hc | hc
    · -- the event ends within this local day: one final slice [s, e]
      have hmin : min e (nextMidnight off s - 1) = e := min_eq_left hc
      rw [hgo, hmin, splitGo_of_not_lt off e f (e + 1) (by omega)]
      refine ⟨⟨rfl, List.chain'_singleton _⟩, ?_, ⟨s, e⟩, rfl, Or.inl rfl⟩
      intro sl hsl
      rcases List.mem_singleton.mp hsl with rfl
      simp [hmin]
    · -- the slice is truncated at nextMidnight - 1
      have hmin : min e (nextMidnight off s - 1) = nextMidnight off s - 1 :=
        min_eq_right (by omega)
      have hadv : s < nextMidnight off s := hprog s
      rcases lt_or_eq_of_le (by omega : nextMidnight off s ≤ e) with hlt | heq
      · -- the loop continues from nextMidnight
        have hf2 : (e - (nextMidnight off s - 1 + 1)).toNat < f := by
          have h1 : (e - (nextMidnight off s - 1 + 1)) < e - s := by omega
          have h2 : (0 : Int) < e - s := by omega
          omega
        obtain ⟨⟨hhead, hchain⟩, hends, lastSl, hlast, hle⟩ :=
          ih (nextMidnight off s - 1 + 1) (by omega) hf2
      -- the tail is nonempty, with head starting 1 ms after the slice end
        obtain ⟨t0, ts, ht⟩ :
            ∃ t0 ts, splitGo off e f (nextMidnight off s - 1 + 1) = t0 :: ts := by
          cases hgo2 : splitGo off e f (nextMidnight off s - 1 + 1) with
          | nil => rw [hgo2] at hhead; exact absurd hhead (by simp)
          | cons t0 ts => exact ⟨t0, ts, rfl⟩
        rw [hgo, hmin]
        constructor
        · constructor
          · rfl
          · rw [ht]
            refine List.Chain'.cons ?_ (ht ▸ hchain)
            have : t0.time = nextMidnight off s - 1 + 1 := by
              rw [ht] at hhead
              simpa using hhead
            simp [this]
        · constructor
          · intro sl hsl
            rcases List.mem_cons.mp hsl with rfl | hmem
            · simp [hmin]
            · exact hends sl hmem
          · refine ⟨lastSl, ?_, hle⟩
            rw [ht] at hlast ⊢
            rw [List.getLast?_cons_cons]
            exact hlast
      · -- e is exactly nextMidnight: the last slice ends at e - 1
        rw [hgo, hmin, heq, splitGo_of_not_lt off e f (e - 1 + 1) (by omega)]
        refine ⟨⟨rfl, List.chain'_singleton _⟩, ?_, ⟨s, e - 1⟩, rfl,
          Or.inr ⟨rfl, heq⟩⟩
        intro sl hsl
        rcases List.mem_singleton.mp hsl with rfl
        simp [heq]

/-- C2 (amended): for every event with `start < end` and a zone whose code
next-midnight always progresses, the emitted sub-blocks tile the event
exactly — the first starts at `E.start`, each subsequent slice starts 1 ms
after the previous slice's end, every slice end is
`min(E.end, nextMidnight(start) - 1)` with the code's `nextMidnight` (one
second past local midnight), and the last slice ends at `E.end` (or at
`E.end - 1 ms` in the boundary case where `E.end` is exactly the code's next
midnight of the last slice's start). -/
theorem splitEvent_tiles_exactly (off : Zone) (s e : Int) (hse : s < e)
    (hprog : ∀ t : Int, t < nextMidnight off t) :
    ((splitEvent off s e).head?.map Slice.time = some s ∧
      List.Chain' (fun a b => b.time = a.stop + 1) (splitEvent off s e)) ∧
    (∀ sl ∈ splitEvent off s e,
      sl.stop = min e (nextMidnight off sl.time - 1)) ∧
    ∃ lastSl, (splitEvent off s e).getLast? = some lastSl ∧
      (lastSl.stop = e ∨
        (lastSl.stop = e - 1 ∧ nextMidnight off lastSl.time = e)) :=
  splitGo_spec off e hprog ((e - s).toNat + 1) s hse (Nat.lt_succ_self _)

/-- Witness for C2's amended theorem: the midnight-spanning event of the
counterexample satisfies the hypotheses in the UTC zone. -/
theorem splitEvent_tiles_exactly_witness :
    ((splitEvent utcZone 1704150000000 1704157200000).head?.map Slice.time =
        some 1704150000000 ∧
      List.Chain' (fun a b => b.time = a.stop + 1)
        (splitEvent utcZone 1704150000000 1704157200000)) ∧
    (∀ sl ∈ splitEvent utcZone 1704150000000 1704157200000,
      sl.stop = min 1704157200000 (nextMidnight utcZone sl.time - 1)) ∧
    ∃ lastSl,
      (splitEvent utcZone 1704150000000 1704157200000).getLast? = some lastSl ∧
      (lastSl.stop = 1704157200000 ∨
        (lastSl.stop = 1704157200000 - 1 ∧
          nextMidnight utcZone lastSl.time = 1704157200000)) :=
  splitEvent_tiles_exactly utcZone 1704150000000 1704157200000 (by decide)
    utc_lt_nextMidnight

/-! ## C3: the focused-entry scenario -/

/-- C3 counterexample: for the scenario log A(09:00), B(09:30), A(17:00) with
`now` = 18:00 of the same UTC day and a one-day view range, the blocks
returned by `getFocusedBlocks` are **not** A[09:00,09:30), B[09:30,17:00),
A[17:00,18:00): the function stores `end: new Date(blockEnd)` — the
end-of-day marker — as every block's end. -/
theorem getFocusedBlocks_stored_ends_ne_scenario :
    ¬ ((getFocusedBlocks utcZone 1704132000000 (convertFocusedEntries focusedLog)
          axisWholeDay 1060 60 [1704067200000]).map (fun r => (r.start, r.stop)) =
        [(1704099600000, 1704101400000), (1704101400000, 1704128400000),
         (1704128400000, 1704132000000)]) := by
  decide

/-- C3 (amended): for the scenario log, `convertFocusedEntries` does give
each entry the next entry's start as its end (A→09:30, B→17:00, last open);
`getFocusedBlocks` emits exactly three blocks starting 09:00, 09:30, 17:00
whose stored ends are all the end-of-day marker 1704153600999
(00:00:00.999 of Jan 2), and whose pixel heights are 30 min, 7.5 h and 1 h —
the heights (not the stored ends) realise min(entry end, end-of-day) with
the open last entry capped at `min(now, viewRange.end + 1 day) = now`. -/
theorem getFocusedBlocks_scenario :
    (convertFocusedEntries focusedLog).map (fun en => (en.start, en.stop?)) =
      [(1704099600000, some 1704101400000), (1704101400000, some 1704128400000),
       (1704128400000, none)] ∧
    (getFocusedBlocks utcZone 1704132000000 (convertFocusedEntries focusedLog)
        axisWholeDay 1060 60 [1704067200000]).map
          (fun r => (r.start, r.stop, r.label)) =
      [(1704099600000, 1704153600999, "A"), (1704101400000, 1704153600999, "B"),
       (1704128400000, 1704153600999, "A")] ∧
    (getFocusedBlocks utcZone 1704132000000 (convertFocusedEntries focusedLog)
        axisWholeDay 1060 60 [1704067200000]).map FocusedRect.height =
      [1800000, 27000000, 3600000] := by
  refine ⟨rfl, by decide, by decide⟩

/-! ## C4: the synthesized sleep interval (spec-modelled) -/

/-- C4: a `sleep_stop` at time `t` preceded by no sleep-signal entry at all
(in particular no open `sleep_start`) synthesizes a Sleep interval from
`t - 7 days` to `t`. -/
theorem getSleepBlocks_lone_stop (now t : Int) (pre : List SystemEntry)
    (hpre : ∀ e ∈ pre, e.sleepState ≠ some "sleep_start" ∧
      e.sleepState ≠ some "sleep_stop") :
    getSleepBlocks now none (pre ++ [⟨t, none, false, some "sleep_stop"⟩]) =
      [⟨t - 7 * dayms, t, "Sleep"⟩] := by
  induction pre with
  | nil => rfl
  | cons e rest ih =>
    have h1 := (hpre e (List.mem_cons_self e rest)).1
    have h2 := (hpre e (List.mem_cons_self e rest)).2
    rw [List.cons_append]
    unfold getSleepBlocks
    rw [if_neg (by simpa using h1), if_neg (by simpa using h2)]
    exact ih (fun x hx => hpre x (List.mem_cons_of_mem e hx))

/-- Witness for C4: the scenario `[{t=08:00, sleep_stop}]` (08:00 UTC on
2024-01-01) alone yields the Sleep block `[08:00 - 7 days, 08:00)`. -/
theorem getSleepBlocks_lone_stop_witness :
    getSleepBlocks 1704132000000 none
        [⟨1704096000000, none, false, some "sleep_stop"⟩] =
      [⟨1704096000000 - 7 * dayms, 1704096000000, "Sleep"⟩] :=
  getSleepBlocks_lone_stop 1704132000000 1704096000000 [] (by simp)

/-! ## C8: `currentMidnight` is UTC-anchored -/

/-- C8: `currentMidnight(ts)` is `Date.UTC(y, m, d, 0, 0, 1)` of `ts`'s local
calendar date — one second past **UTC** midnight of that date, unshifted by
the zone offset; `dateToY` and `rectHeight` measure their offsets from this
value; and for any constant non-UTC offset `c` (other than the no-IANA-zone
value `c = -1000 ms`, where the two accidentally coincide) it differs from
the instant of true local midnight. -/
theorem currentMidnight_utc_anchored :
    (∀ (off : Zone) (ts : Int),
      currentMidnight off ts = dayms * localDayNumber off ts + 1000) ∧
    (∀ (axis : TimeAxis) (off : Zone) (d : Int),
      dateToY axis off d = axis.toFun (d - currentMidnight off d)) ∧
    (∀ (axis : TimeAxis) (off : Zone) (s e : Int),
      rectHeight axis off s e =
        |axis.toFun (e - currentMidnight off s) -
          axis.toFun (s - currentMidnight off s)|) ∧
    (∀ (c ts : Int), c ≠ 0 → c ≠ -1000 →
      currentMidnight (constZone c) ts ≠ specLocalMidnightInstant c ts) := by
  refine ⟨fun off ts => rfl, fun axis off d => rfl, fun axis off s e => rfl,
    fun c ts hc hc2 => ?_⟩
  unfold currentMidnight specLocalMidnightInstant localDayNumber constZone
    utcDayStart
  omega

/-- Witness for C8: at UTC+1 (3600000 ms) and 09:00 on 2024-01-01,
`currentMidnight` differs from the local-midnight instant. -/
theorem currentMidnight_utc_anchored_witness :
    currentMidnight (constZone 3600000) 1704099600000 ≠
      specLocalMidnightInstant 3600000 1704099600000 :=
  currentMidnight_utc_anchored.2.2.2 3600000 1704099600000 (by decide) (by decide)

/-! ## C10: empty inputs -/

/-- C10: every pipeline stage maps the empty entry list to the empty list
(the embedding is total, mirroring that no stage throws on empty input). -/
theorem pipeline_empty_inputs (off : Zone) (now : Int) (axis : TimeAxis)
    (svgWidth labelWidth : ℚ) (dateRange : List Int) :
    convertFocusedEntries [] = [] ∧
    convertSystemEntries [] = [] ∧
    consolidateProcessEntries off [] = [] ∧
    getFocusedBlocks off now [] axis svgWidth labelWidth dateRange = [] ∧
    getSystemBlocks off now [] = [] :=
  ⟨rfl, rfl, rfl, rfl, rfl⟩

/-! ## C6: still-open idle intervals -/

/-- C6 counterexample: `idleTailLog` is timestamp-ordered and its final run
of idle entries (both entries) is not followed by a non-idle entry, yet with
`now = 100` no emitted block ends at `now`: the first idle entry's defined
`end = 5` overwrote the rectangle's end, and the trailing entry (no `end`)
left it. -/
theorem getSystemBlocks_open_idle_not_now :
    (getSystemBlocks utcZone 100 idleTailLog).map (fun r => (r.start, r.stop)) =
        [(0, 5)] ∧
    ¬ ∃ r ∈ getSystemBlocks utcZone 100 idleTailLog, r.stop = 100 := by
  constructor
  · rfl
  · decide

/-! ## C9: the visibility filter -/

/-- Helper for C9: one entry's loop emits exactly the visible candidates. -/
theorem focusedGo_eq_filter (off : Zone) (axis : TimeAxis)
    (svgWidth labelWidth : ℚ) (drLen : ℚ) (endV : Int) (entry : FocusedEntry) :
    ∀ (fuel : Nat) (s : Int),
      focusedGo off axis svgWidth labelWidth drLen endV entry fuel s =
        (focusedCandidatesGo off axis svgWidth labelWidth drLen endV entry
            fuel s).filter (fun r => decide (rectVisible axis r)) := by
  intro fuel
  induction fuel with
  | zero => intro s; rfl
  | succ f ih =>
    intro s
    by_cases hs : s < endV
    · rw [focusedGo, focusedCandidatesGo]
      simp only [if_pos hs, List.filter_cons]
      by_cases hv : rectVisible axis
          (focusedRectAt off axis svgWidth labelWidth drLen endV entry s)
      · simp [hv, ih]
      · simp [hv, ih]
    · rw [focusedGo, focusedCandidatesGo]
      simp [if_neg hs]

/-- C9: `getFocusedBlocks` is exactly the unfiltered day-slice generation
restricted to slices whose pixel extent passes
`y + height >= timeAxis.range()[0] && y < timeAxis.range()[1]`; slices
outside the visible window are silently omitted. -/
theorem getFocusedBlocks_eq_filter_candidates (off : Zone) (now : Int)
    (entries : List FocusedEntry) (axis : TimeAxis) (svgWidth labelWidth : ℚ)
    (dateRange : List Int) :
    getFocusedBlocks off now entries axis svgWidth labelWidth dateRange =
      (getFocusedCandidates off now entries axis svgWidth labelWidth
          dateRange).filter (fun r => decide (rectVisible axis r)) := by
  unfold getFocusedBlocks getFocusedCandidates
  induction entries with
  | nil => rfl
  | cons e rest ih =>
    simp only [List.flatMap_cons, List.filter_append]
    rw [ih]
    unfold focusedEntryRects
    rw [focusedGo_eq_filter]

/-! ## C7: process-sample consolidation -/

/-- C7 counterexample: the first and third sample of `processLog` share a
consolidation key while the middle sample (pid 2) does not, yet
`consolidateProcessEntries` merges the two non-consecutive pid-1 samples into
one block with timestamps `[0, 2]` — grouping is by key over the whole input,
not by maximal consecutive runs (which would give three blocks). -/
theorem consolidate_merges_nonconsecutive :
    (consolidateProcessEntries utcZone processLog).map
        ProcessEntryBlock.timestamps = [[0, 2], [1]] ∧
    processKey utcZone ⟨1, "2", "b", "20", "200", 0⟩ ≠
      processKey utcZone ⟨0, "1", "a", "10", "100", 0⟩ := by
  constructor
  · rfl
  · decide

/-! ## C5: the lane allocator never overlaps a group -/

theorem groupIntervals_append (assigns : List LaneAssign) (a : LaneAssign)
    (name : String) (i : Nat) :
    groupIntervals (assigns ++ [a]) name i =
      groupIntervals assigns name i ++
        (if a.name = name ∧ a.idx = i then [(a.start, a.stop)] else []) := by
  unfold groupIntervals
  rw [List.filter_append, List.map_append]
  congr 1
  by_cases h : a.name = name ∧ a.idx = i
  · simp [h]
  · simp [h]

theorem canPlaceInGroup_no_overlap (assigns : List LaneAssign)
    (b : ProcessEntryBlock) (name : String) (i : Nat)
    (h : canPlaceInGroup assigns b name i = true) :
    ∀ p ∈ groupIntervals assigns name i, ¬(p.1 < b.stop ∧ p.2 > b.start) := by
  intro p hp
  have hb := List.all_eq_true.mp h p hp
  simp only [Bool.not_eq_true', Bool.and_eq_false_iff,
    decide_eq_false_iff_not] at hb
  intro hover
  rcases hover with ⟨h1, h2⟩
  rcases hb with hb | hb <;> omega

theorem allocStep_preserves (st : AllocState) (b : ProcessEntryBlock)
    (h : ∀ name i, List.Pairwise (fun p q : Int × Int => ¬(p.1 < q.2 ∧ p.2 > q.1))
      (groupIntervals st.assigns name i)) :
    ∀ name i, List.Pairwise (fun p q : Int × Int => ¬(p.1 < q.2 ∧ p.2 > q.1))
      (groupIntervals (allocStep st b).assigns name i) := by
  intro name i
  have hassigns : (allocStep st b).assigns =
      st.assigns ++ [⟨b.name, chooseGroupIndex st.assigns b b.name,
        b.start, b.stop⟩] := rfl
  rw [hassigns, groupIntervals_append]
  by_cases hcase :
      (⟨b.name, chooseGroupIndex st.assigns b b.name, b.start, b.stop⟩ :
        LaneAssign).name = name ∧
      (⟨b.name, chooseGroupIndex st.assigns b b.name, b.start, b.stop⟩ :
        LaneAssign).idx = i
  · rw [if_pos hcase]
    rcases hcase with ⟨hn, hi⟩
    simp only at hn hi
    rw [List.pairwise_append]
    refine ⟨h name i, List.pairwise_singleton _ _, ?_⟩
    intro p hp q hq
    rcases List.mem_singleton.mp hq with rfl
    have hplace : canPlaceInGroup st.assigns b b.name
        (chooseGroupIndex st.assigns b b.name) = true :=
      Nat.find_spec (exists_canPlace st.assigns b b.name)
    have := canPlaceInGroup_no_overlap st.assigns b b.name
      (chooseGroupIndex st.assigns b b.name) hplace p (by rw [hi, hn]; exact hp)
    simpa using this
  · rw [if_neg hcase, List.append_nil]
    exact h name i

theorem alloc_foldl_invariant (l : List ProcessEntryBlock) :
    ∀ st : AllocState,
      (∀ name i, List.Pairwise (fun p q : Int × Int => ¬(p.1 < q.2 ∧ p.2 > q.1))
        (groupIntervals st.assigns name i)) →
      ∀ name i, List.Pairwise (fun p q : Int × Int => ¬(p.1 < q.2 ∧ p.2 > q.1))
        (groupIntervals ((l.foldl allocStep st).assigns) name i) := by
  induction l with
  | nil => intro st h; exact h
  | cons b rest ih =>
    intro st h
    exact ih (allocStep st b) (allocStep_preserves st b h)

/-- C5: the Process Lane Allocator never records two overlapping intervals in
the same `(name, groupIndex)` lane group — any two intervals of a group
satisfy `¬(a.start < b.end ∧ a.end > b.start)` — and the chosen group index
is the first of `0, 1, 2, …` whose interval set admits the block. -/
theorem processNameToIndex_no_overlap :
    (∀ (blocks : List ProcessEntryBlock) (name : String) (i : Nat),
      List.Pairwise (fun p q : Int × Int => ¬(p.1 < q.2 ∧ p.2 > q.1))
        (groupIntervals (processNameToIndex blocks).assigns name i)) ∧
    (∀ (assigns : List LaneAssign) (b : ProcessEntryBlock),
      canPlaceInGroup assigns b b.name (chooseGroupIndex assigns b b.name) = true ∧
      ∀ j < chooseGroupIndex assigns b b.name,
        canPlaceInGroup assigns b b.name j = false) := by
  constructor
  · intro blocks name i
    exact alloc_foldl_invariant blocks ⟨[], [], []⟩
      (fun _ _ => List.Pairwise.nil) name i
  · intro assigns b
    refine ⟨Nat.find_spec (exists_canPlace assigns b b.name), ?_⟩
    intro j hj
    have := Nat.find_min (exists_canPlace assigns b b.name) hj
    simpa using this

/-! ## C6 (amended): what the idle scan actually emits -/

theorem mergeIdleGo_eq_emit (now : Int) (l : List SystemEntry) :
    ∀ cur, mergeIdleGo now cur l =
      emitDuring now cur l ++
        (match idleStateAfter now cur l with
          | some r => [r]
          | none => []) := by
  induction l with
  | nil => intro cur; cases cur <;> rfl
  | cons e rest ih =>
    intro cur
    rw [mergeIdleGo, emitDuring, ih (idleStepState now cur e), List.append_assoc]
    rfl

theorem emitDuring_append (now : Int) (l1 l2 : List SystemEntry) :
    ∀ cur, emitDuring now cur (l1 ++ l2) =
      emitDuring now cur l1 ++ emitDuring now (idleStateAfter now cur l1) l2 := by
  induction l1 with
  | nil => intro cur; rfl
  | cons e rest ih =>
    intro cur
    rw [List.cons_append, emitDuring, emitDuring, ih (idleStepState now cur e),
      List.append_assoc]
    rfl

theorem idleStateAfter_append (now : Int) (cur : Option SysRect)
    (l1 l2 : List SystemEntry) :
    idleStateAfter now cur (l1 ++ l2) =
      idleStateAfter now (idleStateAfter now cur l1) l2 :=
  List.foldl_append ..

theorem emitDuring_all_idle (now : Int) (run : List SystemEntry)
    (h : ∀ e ∈ run, e.isIdle = true) :
    ∀ cur, emitDuring now cur run = [] := by
  induction run with
  | nil => intro cur; rfl
  | cons e rest ih =>
    intro cur
    have he : e.isIdle = true := h e (List.mem_cons_self e rest)
    rw [emitDuring]
    simp only [idleStepEmit, if_neg (by simp [he] : ¬ e.isIdle = false)]
    exact ih (fun x hx => h x (List.mem_cons_of_mem e hx)) _

theorem idleStateAfter_some_idle (now : Int) (run : List SystemEntry)
    (h : ∀ e ∈ run, e.isIdle = true) :
    ∀ r : SysRect, idleStateAfter now (some r) run =
      some ⟨r.start, run.foldl (fun acc e => (e.stop?).getD acc) r.stop,
        r.label⟩ := by
  induction run with
  | nil => intro r; cases r; rfl
  | cons e rest ih =>
    intro r
    have he : e.isIdle = true := h e (List.mem_cons_self e rest)
    have hstep : idleStepState now (some r) e =
        some ⟨r.start, (e.stop?).getD r.stop, r.label⟩ := by
      simp only [idleStepState, if_neg (by simp [he] : ¬ e.isIdle = false)]
      cases hs : e.stop? <;> simp [hs]
    show idleStateAfter now (idleStepState now (some r) e) rest = _
    rw [hstep, ih (fun x hx => h x (List.mem_cons_of_mem e hx))]
    rfl

theorem idleStateAfter_none_idle (now : Int) (r0 : SystemEntry)
    (rs : List SystemEntry) (h : ∀ e ∈ r0 :: rs, e.isIdle = true) :
    idleStateAfter now none (r0 :: rs) =
      some ⟨r0.start,
        (r0 :: rs).foldl (fun acc e => (e.stop?).getD acc) now, "Idle"⟩ := by
  have h0 : r0.isIdle = true := h r0 (List.mem_cons_self r0 rs)
  have hstep : idleStepState now none r0 =
      some ⟨r0.start, (r0.stop?).getD now, "Idle"⟩ := by
    simp only [idleStepState, if_neg (by simp [h0] : ¬ r0.isIdle = false)]
    cases hs : r0.stop? <;> simp [hs]
  show idleStateAfter now (idleStepState now none r0) rs = _
  rw [hstep, idleStateAfter_some_idle now rs
    (fun x hx => h x (List.mem_cons_of_mem r0 hx))]
  rfl

theorem idleStateAfter_preClosed (now : Int) (pre : List SystemEntry)
    (h : PreClosed pre) : idleStateAfter now none pre = none := by
  rcases h with rfl | ⟨x, hx, hnx⟩
  · rfl
  · obtain ⟨l2, rfl⟩ := List.getLast?_eq_some_iff.mp hx
    rw [idleStateAfter_append]
    show idleStepState now _ x = none
    simp only [idleStepState, if_pos hnx]

theorem foldl_stop_none (run : List SystemEntry)
    (h : ∀ e ∈ run, e.stop? = none) :
    ∀ init : Int, run.foldl (fun acc e => (e.stop?).getD acc) init = init := by
  induction run with
  | nil => intro init; rfl
  | cons e rest ih =>
    intro init
    have he : e.stop? = none := h e (List.mem_cons_self e rest)
    rw [List.foldl_cons, he]
    exact ih (fun x hx => h x (List.mem_cons_of_mem e hx)) init

theorem foldl_stop_last (l : List SystemEntry) (a : SystemEntry) (E : Int)
    (ha : a.stop? = some E) (init : Int) :
    (l ++ [a]).foldl (fun acc e => (e.stop?).getD acc) init = E := by
  rw [List.foldl_append]
  simp [ha]

/-- C6 (amended): (1) a final run of idle entries not followed by a non-idle
entry is emitted as one still-open rectangle ending at `now` **when no entry
of the run carries a defined end**; (2) an idle run closed by a later
non-idle entry is emitted ending at the run's last entry's end **when that
end is defined** (in general the emitted end is the last defined end seen,
with `now` — set when the rectangle opened — as the default). -/
theorem mergeIdleRects_run_ends :
    (∀ (now : Int) (pre : List SystemEntry) (r0 : SystemEntry)
        (rs : List SystemEntry),
      (∀ e ∈ r0 :: rs, e.isIdle = true ∧ e.stop? = none) → PreClosed pre →
      mergeIdleRects now (pre ++ r0 :: rs) =
        mergeIdleGo now none pre ++ [⟨r0.start, now, "Idle"⟩]) ∧
    (∀ (now E : Int) (pre : List SystemEntry) (r0 : SystemEntry)
        (rs : List SystemEntry) (x : SystemEntry) (suf : List SystemEntry),
      (∀ e ∈ r0 :: rs, e.isIdle = true) →
      ((r0 :: rs).getLast (List.cons_ne_nil r0 rs)).stop? = some E →
      x.isIdle = false → PreClosed pre →
      mergeIdleRects now (pre ++ (r0 :: rs) ++ x :: suf) =
        mergeIdleGo now none pre ++
          ⟨r0.start, E, "Idle"⟩ :: mergeIdleGo now none suf) := by
  constructor
  · intro now pre r0 rs hrun hpre
    have hidle : ∀ e ∈ r0 :: rs, e.isIdle = true := fun e he => (hrun e he).1
    have hnone : ∀ e ∈ r0 :: rs, e.stop? = none := fun e he => (hrun e he).2
    rw [mergeIdleRects, mergeIdleGo_eq_emit, emitDuring_append,
      idleStateAfter_preClosed now pre hpre,
      emitDuring_all_idle now (r0 :: rs) hidle, idleStateAfter_append,
      idleStateAfter_preClosed now pre hpre,
      idleStateAfter_none_idle now r0 rs hidle,
      foldl_stop_none (r0 :: rs) hnone now,
      mergeIdleGo_eq_emit now pre none, idleStateAfter_preClosed now pre hpre]
  · intro now E pre r0 rs x suf hidle hlast hx hpre
    obtain ⟨l2, a, heq, ha⟩ :
        ∃ l2 a, r0 :: rs = l2 ++ [a] ∧ a.stop? = some E :=
      ⟨(r0 :: rs).dropLast, (r0 :: rs).getLast (List.cons_ne_nil r0 rs),
        (List.dropLast_append_getLast (List.cons_ne_nil r0 rs)).symm, hlast⟩
    have hrun : (r0 :: rs).foldl (fun acc e => (e.stop?).getD acc) now = E := by
      rw [heq]
      exact foldl_stop_last l2 a E ha now
    have hR : idleStateAfter now none (r0 :: rs) =
        some ⟨r0.start, E, "Idle"⟩ := by
      rw [idleStateAfter_none_idle now r0 rs hidle, hrun]
    have hstepx : idleStepState now (some (⟨r0.start, E, "Idle"⟩ : SysRect)) x =
        none := by
      simp only [idleStepState, if_pos hx]
    have hemitx : idleStepEmit (some (⟨r0.start, E, "Idle"⟩ : SysRect)) x =
        [⟨r0.start, E, "Idle"⟩] := by
      simp only [idleStepEmit, if_pos hx]
    have hemit : emitDuring now none (pre ++ ((r0 :: rs) ++ x :: suf)) =
        emitDuring now none pre ++
          (⟨r0.start, E, "Idle"⟩ :: emitDuring now none suf) := by
      rw [emitDuring_append, idleStateAfter_preClosed now pre hpre,
        emitDuring_append, emitDuring_all_idle now (r0 :: rs) hidle, hR,
        emitDuring, hemitx, hstepx]
      simp
    have hstate : idleStateAfter now none (pre ++ ((r0 :: rs) ++ x :: suf)) =
        idleStateAfter now none suf := by
      rw [idleStateAfter_append, idleStateAfter_preClosed now pre hpre,
        idleStateAfter_append, hR]
      show idleStateAfter now (idleStepState now _ x) suf = _
      rw [hstepx]
    rw [mergeIdleRects, List.append_assoc, mergeIdleGo_eq_emit, hemit, hstate,
      mergeIdleGo_eq_emit now pre none, idleStateAfter_preClosed now pre hpre,
      mergeIdleGo_eq_emit now suf none]
    simp

/-- Witness for C6's amended theorem: a closed trailing run (one idle entry
with no end after a non-idle entry) ends at `now = 50`; a run whose last idle
entry has `end = 7` and which is closed by a non-idle entry ends at 7. -/
theorem mergeIdleRects_run_ends_witness :
    mergeIdleRects 50 ([⟨0, some 2, false, none⟩] ++
        (⟨2, none, true, none⟩ : SystemEntry) :: []) =
      mergeIdleGo 50 none [⟨0, some 2, false, none⟩] ++ [⟨2, 50, "Idle"⟩] ∧
    mergeIdleRects 50 (([] ++ (⟨3, some 7, true, none⟩ : SystemEntry) :: []) ++
        (⟨7, none, false, none⟩ : SystemEntry) :: []) =
      mergeIdleGo 50 none [] ++
        (⟨3, 7, "Idle"⟩ : SysRect) :: mergeIdleGo 50 none [] :=
  ⟨mergeIdleRects_run_ends.1 50 [⟨0, some 2, false, none⟩]
      ⟨2, none, true, none⟩ [] (by decide)
      (Or.inr ⟨⟨0, some 2, false, none⟩, rfl, rfl⟩),
   mergeIdleRects_run_ends.2 50 7 [] ⟨3, some 7, true, none⟩ []
      ⟨7, none, false, none⟩ [] (by decide) rfl rfl (Or.inl rfl)⟩

/-! ## C7 (amended): consolidation groups by key over the whole input -/

theorem consolidatedDict_append (off : Zone) (l : List ProcessEntry)
    (e : ProcessEntry) :
    consolidatedDict off (l ++ [e]) =
      consolidateStep off (consolidatedDict off l) e := by
  unfold consolidatedDict
  rw [List.foldl_append]
  rfl

theorem groupBlock_append (l : List ProcessEntry) (e : ProcessEntry) :
    groupBlock (l ++ [e]) =
      some (match groupBlock l with
        | none => newProcessBlock e
        | some b => pushSample b e) := by
  cases l with
  | nil => rfl
  | cons a as =>
    simp [groupBlock, pushSample, newProcessBlock, List.getLastD_concat]

theorem find?_append_cases {α : Type} (l1 l2 : List α) (p : α → Bool) :
    (l1 ++ l2).find? p =
      match l1.find? p with
      | some a => some a
      | none => l2.find? p := by
  induction l1 with
  | nil => rfl
  | cons a as ih =>
    rw [List.cons_append, List.find?_cons, List.find?_cons]
    cases p a <;> simp [ih]

theorem consolidateStep_find (off : Zone)
    (acc : List ((String × Int × Int) × ProcessEntryBlock)) (e : ProcessEntry)
    (k : String × Int × Int) :
    (consolidateStep off acc e).find? (fun kb => decide (kb.1 = k)) =
      if k = processKey off e then
        match acc.find? (fun kb => decide (kb.1 = k)) with
        | none => some (k, newProcessBlock e)
        | some kb => some (kb.1, pushSample kb.2 e)
      else acc.find? (fun kb => decide (kb.1 = k)) := by
  unfold consolidateStep
  by_cases hany : acc.any (fun kb => decide (kb.1 = processKey off e)) = true
  · rw [if_pos hany, List.find?_map]
    have hpf : ((fun kb : (String × Int × Int) × ProcessEntryBlock =>
        decide (kb.1 = k)) ∘ (fun kb =>
          if kb.1 = processKey off e then (kb.1, pushSample kb.2 e) else kb)) =
        fun kb => decide (kb.1 = k) := by
      funext kb
      by_cases hkb : kb.1 = processKey off e <;> simp [hkb]
    rw [hpf]
    by_cases hk : k = processKey off e
    · rw [if_pos hk]
      cases hfind : acc.find? (fun kb => decide (kb.1 = k)) with
      | none =>
        exfalso
        rcases List.any_eq_true.mp hany with ⟨kb, hkb, hkbp⟩
        have h2 : ¬ kb.1 = k := by simpa using List.find?_eq_none.mp hfind kb hkb
        have h3 : kb.1 = processKey off e := by simpa using hkbp
        exact h2 (by rw [h3, ← hk])
      | some kb =>
        have hkb : kb.1 = k := by simpa using List.find?_some hfind
        have hp : kb.1 = processKey off e := hkb.trans hk
        simp [hp]
    · rw [if_neg hk]
      cases hfind : acc.find? (fun kb => decide (kb.1 = k)) with
      | none => rfl
      | some kb =>
        have hkb : kb.1 = k := by simpa using List.find?_some hfind
        have hne : ¬ kb.1 = processKey off e := by rw [hkb]; exact hk
        simp [hne]
  · rw [if_neg hany, find?_append_cases]
    have hnone : ∀ kb ∈ acc, ¬ kb.1 = processKey off e := by
      intro kb hkb
      by_contra hc
      exact hany (List.any_eq_true.mpr ⟨kb, hkb, by simpa using hc⟩)
    by_cases hk : k = processKey off e
    · have hfind : acc.find? (fun kb => decide (kb.1 = k)) = none := by
        rw [List.find?_eq_none]
        intro kb hkb
        have hnk : ¬ kb.1 = k := fun hc => hnone kb hkb (hc.trans hk)
        simpa using hnk
      rw [if_pos hk, hfind]
      show List.find? (fun kb => decide (kb.1 = k))
          [(processKey off e, newProcessBlock e)] = some (k, newProcessBlock e)
      rw [hk]
      exact List.find?_cons_of_pos _ (by simp)
    · rw [if_neg hk]
      cases hfind : acc.find? (fun kb => decide (kb.1 = k)) with
      | none =>
        show List.find? (fun kb => decide (kb.1 = k))
            [(processKey off e, newProcessBlock e)] = none
        refine List.find?_eq_none.mpr ?_
        intro x hx
        rcases List.mem_singleton.mp hx with rfl
        simpa using fun h : processKey off e = k => hk h.symm
      | some kb => rfl


theorem consolidateStep_keys_nodup (off : Zone)
    (acc : List ((String × Int × Int) × ProcessEntryBlock)) (e : ProcessEntry)
    (h : (acc.map Prod.fst).Nodup) :
    ((consolidateStep off acc e).map Prod.fst).Nodup := by
  unfold consolidateStep
  by_cases hany : acc.any (fun kb => decide (kb.1 = processKey off e)) = true
  · rw [if_pos hany, List.map_map]
    have hcomp : (Prod.fst ∘ fun kb : (String × Int × Int) × ProcessEntryBlock =>
        if kb.1 = processKey off e then (kb.1, pushSample kb.2 e) else kb) =
        Prod.fst := by
      funext kb
      by_cases hkb : kb.1 = processKey off e <;> simp [hkb]
    rw [hcomp]
    exact h
  · rw [if_neg hany, List.map_append]
    refine List.Nodup.append h (List.nodup_singleton _) ?_
    intro a ha hb
    rcases List.mem_singleton.mp hb with rfl
    rcases List.mem_map.mp ha with ⟨kb, hkb, hfst⟩
    have hne : ¬ kb.1 = processKey off e := by
      intro hc
      exact hany (List.any_eq_true.mpr ⟨kb, hkb, by simpa using hc⟩)
    exact hne hfst

/-- C7 (amended): `consolidateProcessEntries` groups **all** samples sharing
the key `(pid, started ms, local day-of-week)` — consecutive in the input or
not — into one block; the block's timestamps/cpu/memory list those samples in
input order, its `start` is the first such sample's time and its `end` the
last's; keys are unique in the dictionary, and the output is the dictionary's
values in key-insertion order. -/
theorem consolidateProcessEntries_groups_by_key :
    (∀ (off : Zone) (entries : List ProcessEntry),
      ((consolidatedDict off entries).map Prod.fst).Nodup) ∧
    (∀ (off : Zone) (entries : List ProcessEntry) (k : String × Int × Int),
      (consolidatedDict off entries).find? (fun kb => decide (kb.1 = k)) =
        (groupBlock (entries.filter
            (fun e => decide (processKey off e = k)))).map (fun b => (k, b))) ∧
    (∀ (off : Zone) (entries : List ProcessEntry),
      consolidateProcessEntries off entries =
        (consolidatedDict off entries).map Prod.snd) := by
  refine ⟨?_, ?_, fun off entries => rfl⟩
  · intro off entries
    induction entries using List.reverseRecOn with
    | nil => simp [consolidatedDict]
    | append_singleton l e ih =>
      rw [consolidatedDict_append]
      exact consolidateStep_keys_nodup off _ e ih
  · intro off entries k
    induction entries using List.reverseRecOn with
    | nil => rfl
    | append_singleton l e ih =>
      rw [consolidatedDict_append, consolidateStep_find, List.filter_append]
      by_cases hk : k = processKey off e
      · rw [if_pos hk]
        have hf : [e].filter (fun e2 => decide (processKey off e2 = k)) = [e] := by
          simp [hk]
        rw [hf, groupBlock_append, ih]
        cases hgb : groupBlock (l.filter
            (fun e2 => decide (processKey off e2 = k))) with
        | none => simp
        | some b => simp
      · rw [if_neg hk]
        have hf : [e].filter (fun e2 => decide (processKey off e2 = k)) = [] := by
          simp
          exact fun h => hk h.symm
        rw [hf, List.append_nil, ih]

end TimeTracker
